import Mathlib

/-!
Shallow embedding of the template core of
`src/components/document-editor.jsx`: the field extractor
(`extractFieldsFromJson`) and the template validator
(`validateTemplate` with its helper `getNestedValue`).

JavaScript values reachable from parsed JSON (plus `undefined`, which the
code manufactures and tests for) are modelled by the mutual inductive
`JSValue`/`JSList`/`JSFields` (the latter two are the element list of an
array and the key/value entry list of an object, in insertion order).
JavaScript exceptions (the `TypeError` thrown by reading a property of
`null`/`undefined` and by `Object.keys(null)`) are modelled by
`Except Unit`: `.error ()` is a thrown `TypeError`.  String scanning is
done over `List Char` so that every definition evaluates inside the
kernel.
-/

mutual

/-- JavaScript values as produced by `JSON.parse`, plus `undefined`. -/
inductive JSValue where
  | null
  | undefined
  | bool (b : Bool)
  | num (n : Int)
  | str (s : String)
  | arr (elems : JSList)
  | obj (fields : JSFields)

/-- The elements of a JavaScript array. -/
inductive JSList where
  | nil
  | cons (head : JSValue) (tail : JSList)

/-- The own enumerable entries of a JavaScript object, in insertion order. -/
inductive JSFields where
  | nil
  | cons (key : String) (value : JSValue) (rest : JSFields)

end

/-- Number of elements of an array. -/
def JSList.length : JSList → Nat
  | .nil => 0
  | .cons _ t => t.length + 1

/-- Element at an index, or `undefined` past the end. -/
def JSList.getD : JSList → Nat → JSValue
  | .nil, _ => .undefined
  | .cons x _, 0 => x
  | .cons _ t, i + 1 => t.getD i

/-- Value of an own property of an object, or `undefined` when absent. -/
def JSFields.getProp : JSFields → String → JSValue
  | .nil, _ => .undefined
  | .cons key v rest, k => if key = k then v else rest.getProp k

/-- Whether an object owns a property named `k`. -/
def JSFields.hasKey : JSFields → String → Bool
  | .nil, _ => false
  | .cons key _ rest, k => key = k || rest.hasKey k

/-- JavaScript `typeof v === "object"` (true for `null`, arrays and objects). -/
def typeofIsObject : JSValue → Bool
  | .null | .arr _ | .obj _ => true
  | _ => false

/-- JavaScript `typeof` as a string. -/
def jsTypeof : JSValue → String
  | .null => "object"
  | .undefined => "undefined"
  | .bool _ => "boolean"
  | .num _ => "number"
  | .str _ => "string"
  | .arr _ => "object"
  | .obj _ => "object"

/-- JavaScript truthiness of a value. -/
def truthy : JSValue → Bool
  | .null | .undefined => false
  | .bool b => b
  | .num n => n != 0
  | .str s => s != ""
  | .arr _ | .obj _ => true

/-- Whether a value is `null` or `undefined` (property access throws). -/
def isNullish : JSValue → Bool
  | .null | .undefined => true
  | _ => false

/-- Whether a value is exactly `undefined`. -/
def isUndef : JSValue → Bool
  | .undefined => true
  | _ => false

/-- Whether a value is exactly `null`. -/
def isNull : JSValue → Bool
  | .null => true
  | _ => false

/-- Numeric value of a digit list, if all characters are decimal digits. -/
def natOfDigits (cs : List Char) : Option Nat :=
  if cs ≠ [] ∧ cs.all Char.isDigit then
    some (cs.foldl (fun a c => a * 10 + (c.toNat - 48)) 0)
  else none

/-- Canonical array-index reading of a property key, as JavaScript arrays
use it (`"0"`, `"17"`, but not `"01"` or `"2x"`). -/
def canonicalIndex (k : String) : Option Nat :=
  match natOfDigits k.data with
  | some n => if toString n = k then some n else none
  | none => none

/-- JavaScript property read `v[k]` for non-nullish `v` (own properties of
objects; indices and `length` of arrays and strings; `undefined` otherwise). -/
def jsGet (v : JSValue) (k : String) : JSValue :=
  match v with
  | .obj fields => fields.getProp k
  | .arr xs =>
    if k = "length" then .num xs.length
    else
      match canonicalIndex k with
      | some i => xs.getD i
      | none => .undefined
  | .str s =>
    if k = "length" then .num s.length
    else
      match canonicalIndex k with
      | some i =>
        match s.data.get? i with
        | some c => .str (String.mk [c])
        | none => .undefined
      | none => .undefined
  | _ => .undefined

/-- JavaScript `k in v` for object-typed `v`. -/
def jsHasProp (v : JSValue) (k : String) : Bool :=
  match v with
  | .obj fields => fields.hasKey k
  | .arr xs =>
    k = "length" ||
      (match canonicalIndex k with
       | some i => decide (i < xs.length)
       | none => false)
  | .str s =>
    k = "length" ||
      (match canonicalIndex k with
       | some i => decide (i < s.length)
       | none => false)
  | _ => false

/-- JavaScript property read `v[k]` including the `TypeError` thrown when
`v` is `null` or `undefined`. -/
def jsAccess (v : JSValue) (k : String) : Except Unit JSValue :=
  if isNullish v then .error () else .ok (jsGet v k)

/-- Split a character list at every dot, like `"a.b".split(".")`
(an empty input yields `[""]`, as in JavaScript). -/
def splitDotC : List Char → List (List Char)
  | [] => [[]]
  | c :: rest =>
    let r := splitDotC rest
    if c = '.' then [] :: r
    else
      match r with
      | s :: ss => (c :: s) :: ss
      | [] => [[c]]

/-- The key-by-key descent loop of `getNestedValue` (document-editor.jsx
lines 938-943): returns `undefined` as soon as the current value is
`null`/`undefined`, otherwise reads the next key. -/
def descend : JSValue → List String → JSValue
  | cur, [] => cur
  | cur, k :: ks => if isNullish cur then .undefined else descend (jsGet cur k) ks

/-- Embedding of `getNestedValue(obj, path)` (document-editor.jsx lines
928-946).  Reading `obj.model` throws if `obj` is nullish; if `obj.model`
is a truthy object the descent starts from it instead of `obj`. -/
def getNestedValue (obj : JSValue) (path : String) : Except Unit JSValue :=
  match jsAccess obj "model" with
  | .error e => .error e
  | .ok m =>
    let data := if truthy m && typeofIsObject m then m else obj
    .ok (descend data ((splitDotC path.data).map String.mk))

/-- A placeholder occurrence found by the regex scan:
`full` is the whole matched text, `field` the trimmed inner text,
`position` the character offset. -/
structure Placeholder where
  full : String
  field : String
  position : Nat
deriving DecidableEq, Repr

/-- A validation report: ordered issue and warning messages plus the
number of placeholders found. -/
structure VReport where
  issues : List String
  warnings : List String
  placeholderCount : Nat
deriving DecidableEq, Repr

/-- Scanner state of the validator: accumulated messages, the context
stack (head is the top; the bottom entry is the root data) and the
parallel loop-name stack. -/
structure VState where
  issues : List String
  warnings : List String
  contextStack : List JSValue
  loopStack : List String

/-- Strip ASCII whitespace from both ends of a character list
(the model of `String.prototype.trim` on the texts that occur here). -/
def trimChars (l : List Char) : List Char :=
  ((l.dropWhile Char.isWhitespace).reverse.dropWhile Char.isWhitespace).reverse

/-- One attempt of the placeholder regex (two opening braces, one or more
characters other than a closing brace, two closing braces) anchored at the
start of `cs`: on success returns the captured run and the match length. -/
def tryMatch (cs : List Char) : Option (List Char × Nat) :=
  match cs with
  | '\x7b' :: '\x7b' :: rest =>
    let run := rest.takeWhile (fun c => c ≠ '\x7d')
    match rest.dropWhile (fun c => c ≠ '\x7d') with
    | '\x7d' :: '\x7d' :: _ =>
      if run.isEmpty then none else some (run, run.length + 4)
    | _ => none
  | _ => none

/-- The `while (match = placeholderRegex.exec(...))` loop: find leftmost
matches, resuming after each match; the fuel argument bounds the number
of scanning steps and the text length always suffices. -/
def scanAux : Nat → List Char → Nat → List Placeholder
  | 0, _, _ => []
  | fuel + 1, cs, pos =>
    match tryMatch cs with
    | some (run, len) =>
      { full := String.mk (cs.take len)
        field := String.mk (trimChars run)
        position := pos } :: scanAux fuel (cs.drop len) (pos + len)
    | none =>
      match cs with
      | [] => []
      | _ :: rest => scanAux fuel rest (pos + 1)

/-- All placeholder occurrences of a document text, in order
(document-editor.jsx lines 957-968). -/
def findPlaceholders (s : String) : List Placeholder :=
  scanAux s.data.length s.data 0

/-- Warning text for a document with no placeholders. -/
def msgNoPlaceholders : String :=
  "No template placeholders found in the document. The document will be generated as-is without any data population."

/-- Issue text for a scope marker whose target is missing. -/
def msgMissingLoopData (field fieldName : String) : String :=
  "Loop/Section marker \"\x7b\x7b" ++ field ++ "\x7d\x7d\" references missing data: \"" ++ fieldName ++ "\""

/-- Warning text for a scope marker whose target is not an array/object. -/
def msgNotArray (field fieldName typeName : String) : String :=
  "Loop marker \"\x7b\x7b" ++ field ++ "\x7d\x7d\" points to \"" ++ fieldName ++ "\" which is not an array or object (it\x27s a " ++ typeName ++ "). This may cause unexpected behavior."

/-- Warning text for a close marker with no matching open marker. -/
def msgNoStart (field : String) : String :=
  "Loop end marker \"\x7b\x7b" ++ field ++ "\x7d\x7d\" found without a matching start marker."

/-- Warning text for a close marker that does not match the innermost
open marker. -/
def msgMismatch (field expectedLoop : String) : String :=
  "Loop end marker \"\x7b\x7b" ++ field ++ "\x7d\x7d\" doesn\x27t match the most recent loop start \"\x7b\x7b#" ++ expectedLoop ++ "\x7d\x7d\". Loops may be improperly nested."

/-- Issue text for a field missing from the current loop item. -/
def msgInLoop (field loopName : String) : String :=
  "Placeholder \"\x7b\x7b" ++ field ++ "\x7d\x7d\" in loop \"\x7b\x7b#" ++ loopName ++ "\x7d\x7d\" has no corresponding field in the loop items."

/-- Issue text for a field missing from the root data. -/
def msgMissingRoot (field : String) : String :=
  "Placeholder \"\x7b\x7b" ++ field ++ "\x7d\x7d\" has no corresponding data. Please ensure your data source includes a \"" ++ field ++ "\" field."

/-- Warning text for a field whose value is null. -/
def msgNullValue (field : String) : String :=
  "Placeholder \"\x7b\x7b" ++ field ++ "\x7d\x7d\" has a null value in the data source."

/-- Warning text for a loop that was opened but never closed. -/
def msgNeverClosed (loopName : String) : String :=
  "Loop \"\x7b\x7b#" ++ loopName ++ "\x7d\x7d\" was started but never closed with \"\x7b\x7b/" ++ loopName ++ "\x7d\x7d\"."

/-- Processing of one placeholder occurrence by the validator
(the body of the `placeholders.forEach` at document-editor.jsx lines
981-1091), acting on the scanner state.  `data` is the root data source. -/
def step (data : JSValue) (st : VState) (p : Placeholder) : Except Unit VState :=
  match p.field.data with
  | '#' :: restChars =>
    let field := p.field
    let fieldName := String.mk restChars
    let currentContext := st.contextStack.headD .undefined
    match getNestedValue currentContext fieldName with
    | .error e => .error e
    | .ok value =>
      match value with
      | .undefined =>
        .ok { st with
          issues := st.issues ++ [msgMissingLoopData field fieldName]
          contextStack := JSValue.undefined :: st.contextStack
          loopStack := fieldName :: st.loopStack }
      | .arr xs =>
        let itemContext := match xs with | .nil => JSValue.obj .nil | .cons x _ => x
        .ok { st with
          contextStack := itemContext :: st.contextStack
          loopStack := fieldName :: st.loopStack }
      | .obj ofields =>
        .ok { st with
          contextStack := JSValue.obj ofields :: st.contextStack
          loopStack := fieldName :: st.loopStack }
      | other =>
        .ok { st with
          warnings := st.warnings ++ [msgNotArray field fieldName (jsTypeof other)]
          contextStack := other :: st.contextStack
          loopStack := fieldName :: st.loopStack }
  | '/' :: restChars =>
    let field := p.field
    let fieldName := String.mk restChars
    match st.loopStack with
    | [] => .ok { st with warnings := st.warnings ++ [msgNoStart field] }
    | expectedLoop :: restLoops =>
      if expectedLoop ≠ fieldName then
        .ok { st with warnings := st.warnings ++ [msgMismatch field expectedLoop] }
      else
        .ok { st with contextStack := st.contextStack.tail, loopStack := restLoops }
  | _ =>
    let field := p.field
    let currentContext := st.contextStack.headD .undefined
    if isUndef currentContext then .ok st
    else
      let valueE : Except Unit JSValue :=
        if field.data.contains '.' then getNestedValue currentContext field
        else if typeofIsObject currentContext && !isNull currentContext
                && jsHasProp currentContext field then
          .ok (jsGet currentContext field)
        else getNestedValue data field
      match valueE with
      | .error e => .error e
      | .ok value =>
        if isUndef value then
          match st.loopStack with
          | loopName :: _ =>
            if typeofIsObject currentContext && !isNull currentContext then
              if !jsHasProp currentContext field then
                .ok { st with issues := st.issues ++ [msgInLoop field loopName] }
              else .ok st
            else .ok st
          | [] =>
            match getNestedValue data field with
            | .error e => .error e
            | .ok rootValue =>
              if isUndef rootValue then
                .ok { st with issues := st.issues ++ [msgMissingRoot field] }
              else .ok st
        else if isNull value then
          .ok { st with warnings := st.warnings ++ [msgNullValue field] }
        else .ok st

/-- The initial scanner state: context stack `[data]`, empty loop stack. -/
def initState (data : JSValue) : VState :=
  { issues := [], warnings := [], contextStack := [data], loopStack := [] }

/-- Embedding of `validateTemplate(documentText, data)` (document-editor.jsx
lines 953-1103).  `.error ()` models a thrown `TypeError` (surfacing as a
rejected promise at the async boundary). -/
def validateTemplate (documentText : String) (data : JSValue) : Except Unit VReport :=
  let placeholders := findPlaceholders documentText
  if placeholders.length = 0 then
    .ok { issues := [], warnings := [msgNoPlaceholders], placeholderCount := 0 }
  else
    match placeholders.foldlM (step data) (initState data) with
    | .error e => .error e
    | .ok st =>
      .ok { issues := st.issues
            warnings := st.warnings ++ st.loopStack.reverse.map msgNeverClosed
            placeholderCount := placeholders.length }

/-- A field descriptor emitted by the extractor (one entry of the `fields`
array of `extractFieldsFromJson`); the optional boolean marker flags of the
JavaScript objects default to `false` when absent. -/
structure FieldDesc where
  name : String
  label : String
  placeholder : String
  indentLevel : Nat
  type : String
  isLoopStart : Bool := false
  isLoopEnd : Bool := false
  isObjectStart : Bool := false
  isObjectEnd : Bool := false
deriving DecidableEq, Repr

/-- The indentation prefix `"  ".repeat(indentLevel)`. -/
def repeatIndent : Nat → String
  | 0 => ""
  | n + 1 => "  " ++ repeatIndent n

/-- The descriptor of the `simple` branches of `processValue`. -/
def simpleDesc (currentPath key : String) (indentLevel : Nat) : FieldDesc :=
  { name := currentPath, label := repeatIndent indentLevel ++ key,
    placeholder := "\x7b\x7b" ++ key ++ "\x7d\x7d",
    indentLevel := indentLevel, type := "simple" }

/-- The descriptor of the `array-simple` branch of `processValue`. -/
def arraySimpleDesc (currentPath key : String) (indentLevel : Nat) : FieldDesc :=
  { name := currentPath, label := repeatIndent indentLevel ++ key,
    placeholder := "\x7b\x7b" ++ key ++ "\x7d\x7d",
    indentLevel := indentLevel, type := "array-simple" }

/-- The loop-start marker descriptor. -/
def loopStartDesc (currentPath key : String) (indentLevel : Nat) : FieldDesc :=
  { name := "#" ++ currentPath,
    label := repeatIndent indentLevel ++ key ++ " (Loop Start)",
    placeholder := "\x7b\x7b#" ++ key ++ "\x7d\x7d",
    isLoopStart := true, indentLevel := indentLevel, type := "loop-start" }

/-- The loop-end marker descriptor. -/
def loopEndDesc (currentPath key : String) (indentLevel : Nat) : FieldDesc :=
  { name := "/" ++ currentPath,
    label := repeatIndent indentLevel ++ key ++ " (Loop End)",
    placeholder := "\x7b\x7b/" ++ key ++ "\x7d\x7d",
    isLoopEnd := true, indentLevel := indentLevel, type := "loop-end" }

/-- The object-start marker descriptor. -/
def objectStartDesc (currentPath key : String) (indentLevel : Nat) : FieldDesc :=
  { name := "#" ++ currentPath,
    label := repeatIndent indentLevel ++ key ++ " (Object Start)",
    placeholder := "\x7b\x7b#" ++ key ++ "\x7d\x7d",
    isObjectStart := true, indentLevel := indentLevel, type := "object-start" }

/-- The object-end marker descriptor. -/
def objectEndDesc (currentPath key : String) (indentLevel : Nat) : FieldDesc :=
  { name := "/" ++ currentPath,
    label := repeatIndent indentLevel ++ key ++ " (Object End)",
    placeholder := "\x7b\x7b/" ++ key ++ "\x7d\x7d",
    isObjectEnd := true, indentLevel := indentLevel, type := "object-end" }

mutual

/-- Embedding of `processValue(value, key, parentPath, indentLevel)`
(document-editor.jsx lines 49-129).  In the array branch, the inner match
on the first element realises `typeof value[0] === "object"`: `null`,
arrays and objects take the loop branch (`Object.keys(null)` throws),
every other first element gives the `array-simple` descriptor.  Note that
the recursive calls of the loop branch pass `key` (not `currentPath`) as
the children's parent path, exactly as line 75 of the source does. -/
def processValue : JSValue → String → String → Nat → Except Unit (List FieldDesc)
  | value, key, parentPath, indentLevel =>
    let currentPath := if parentPath = "" then key else parentPath ++ "." ++ key
    match value with
    | .null | .undefined => .ok [simpleDesc currentPath key indentLevel]
    | .arr .nil => .ok [arraySimpleDesc currentPath key indentLevel]
    | .arr (.cons x _) =>
      match x with
      | .null => .error ()
      | .obj fs =>
        match processFields fs key (indentLevel + 1) with
        | .error e => .error e
        | .ok childFields =>
          .ok (loopStartDesc currentPath key indentLevel ::
               (childFields ++ [loopEndDesc currentPath key indentLevel]))
      | .arr ys =>
        match processElems 0 ys key (indentLevel + 1) with
        | .error e => .error e
        | .ok childFields =>
          .ok (loopStartDesc currentPath key indentLevel ::
               (childFields ++ [loopEndDesc currentPath key indentLevel]))
      | _ => .ok [arraySimpleDesc currentPath key indentLevel]
    | .obj ofields =>
      match processFields ofields currentPath (indentLevel + 1) with
      | .error e => .error e
      | .ok childFields =>
        .ok (objectStartDesc currentPath key indentLevel ::
             (childFields ++ [objectEndDesc currentPath key indentLevel]))
    | _ => .ok [simpleDesc currentPath key indentLevel]

/-- Sequential processing of the entries of an object, as the
`Object.keys(...).forEach` loops of the source do. -/
def processFields : JSFields → String → Nat → Except Unit (List FieldDesc)
  | .nil, _, _ => .ok []
  | .cons k v rest, parentPath, indentLevel =>
    match processValue v k parentPath indentLevel with
    | .error e => .error e
    | .ok fs1 =>
      match processFields rest parentPath indentLevel with
      | .error e => .error e
      | .ok fs2 => .ok (fs1 ++ fs2)

/-- Sequential processing of the index/element entries that `Object.keys`
yields on an array. -/
def processElems : Nat → JSList → String → Nat → Except Unit (List FieldDesc)
  | _, .nil, _, _ => .ok []
  | i, .cons x rest, parentPath, indentLevel =>
    match processValue x (toString i) parentPath indentLevel with
    | .error e => .error e
    | .ok fs1 =>
      match processElems (i + 1) rest parentPath indentLevel with
      | .error e => .error e
      | .ok fs2 => .ok (fs1 ++ fs2)

end

/-- Sequential processing of the index/character entries that `Object.keys`
yields on a string (only reachable at the top level). -/
def processStrChars : Nat → List Char → Except Unit (List FieldDesc)
  | _, [] => .ok []
  | i, c :: cs =>
    match processValue (.str (String.mk [c])) (toString i) "" 0 with
    | .error e => .error e
    | .ok fs1 =>
      match processStrChars (i + 1) cs with
      | .error e => .error e
      | .ok fs2 => .ok (fs1 ++ fs2)

/-- `processModel(x)` (document-editor.jsx lines 131-135): walk the
`Object.keys` entries of `x` with empty parent path and indent 0;
`Object.keys` throws on `null`/`undefined`. -/
def runProcessModel (x : JSValue) : Except Unit (List FieldDesc) :=
  match x with
  | .null | .undefined => .error ()
  | .obj fields => processFields fields "" 0
  | .arr elems => processElems 0 elems "" 0
  | .str s => processStrChars 0 s.data
  | _ => .ok []

/-- Embedding of `extractFieldsFromJson(data)` (document-editor.jsx lines
46-150): an array root uses its first element when that is object-typed
(including `null`, which makes `Object.keys` throw); an object root
unwraps a truthy object-typed `model` property; every other root produces
no fields. -/
def extractFieldsFromJson (data : JSValue) : Except Unit (List FieldDesc) :=
  match data with
  | .arr .nil => .ok []
  | .arr (.cons x _) => if typeofIsObject x then runProcessModel x else .ok []
  | .obj _ =>
    let m := jsGet data "model"
    if truthy m && typeofIsObject m then runProcessModel m else runProcessModel data
  | _ => .ok []

mutual

/-- Modelled from the spec: the spec's section 3 describes the `name` of a
Field Descriptor as the dotted path from the data source root (for example
`address.city`), `#`/`/` prefixed for scope markers, at every nesting
depth.  This walker is `processValue` with the one difference that the
loop branch passes `currentPath` (the full dotted path) as the children's
parent path, so every descriptor is named by its full path from the root. -/
def processValueSpec : JSValue → String → String → Nat → Except Unit (List FieldDesc)
  | value, key, parentPath, indentLevel =>
    let currentPath := if parentPath = "" then key else parentPath ++ "." ++ key
    match value with
    | .null | .undefined => .ok [simpleDesc currentPath key indentLevel]
    | .arr .nil => .ok [arraySimpleDesc currentPath key indentLevel]
    | .arr (.cons x _) =>
      match x with
      | .null => .error ()
      | .obj fs =>
        match processFieldsSpec fs currentPath (indentLevel + 1) with
        | .error e => .error e
        | .ok childFields =>
          .ok (loopStartDesc currentPath key indentLevel ::
               (childFields ++ [loopEndDesc currentPath key indentLevel]))
      | .arr ys =>
        match processElemsSpec 0 ys currentPath (indentLevel + 1) with
        | .error e => .error e
        | .ok childFields =>
          .ok (loopStartDesc currentPath key indentLevel ::
               (childFields ++ [loopEndDesc currentPath key indentLevel]))
      | _ => .ok [arraySimpleDesc currentPath key indentLevel]
    | .obj ofields =>
      match processFieldsSpec ofields currentPath (indentLevel + 1) with
      | .error e => .error e
      | .ok childFields =>
        .ok (objectStartDesc currentPath key indentLevel ::
             (childFields ++ [objectEndDesc currentPath key indentLevel]))
    | _ => .ok [simpleDesc currentPath key indentLevel]

/-- Entry walking of `processValueSpec` over object entries. -/
def processFieldsSpec : JSFields → String → Nat → Except Unit (List FieldDesc)
  | .nil, _, _ => .ok []
  | .cons k v rest, parentPath, indentLevel =>
    match processValueSpec v k parentPath indentLevel with
    | .error e => .error e
    | .ok fs1 =>
      match processFieldsSpec rest parentPath indentLevel with
      | .error e => .error e
      | .ok fs2 => .ok (fs1 ++ fs2)

/-- Entry walking of `processValueSpec` over array index entries. -/
def processElemsSpec : Nat → JSList → String → Nat → Except Unit (List FieldDesc)
  | _, .nil, _, _ => .ok []
  | i, .cons x rest, parentPath, indentLevel =>
    match processValueSpec x (toString i) parentPath indentLevel with
    | .error e => .error e
    | .ok fs1 =>
      match processElemsSpec (i + 1) rest parentPath indentLevel with
      | .error e => .error e
      | .ok fs2 => .ok (fs1 ++ fs2)

end

/-- Entry walking of `processValueSpec` over string character entries. -/
def processStrCharsSpec : Nat → List Char → Except Unit (List FieldDesc)
  | _, [] => .ok []
  | i, c :: cs =>
    match processValueSpec (.str (String.mk [c])) (toString i) "" 0 with
    | .error e => .error e
    | .ok fs1 =>
      match processStrCharsSpec (i + 1) cs with
      | .error e => .error e
      | .ok fs2 => .ok (fs1 ++ fs2)

/-- Top-level entry walk of the spec-modelled extractor. -/
def runProcessModelSpec (x : JSValue) : Except Unit (List FieldDesc) :=
  match x with
  | .null | .undefined => .error ()
  | .obj fields => processFieldsSpec fields "" 0
  | .arr elems => processElemsSpec 0 elems "" 0
  | .str s => processStrCharsSpec 0 s.data
  | _ => .ok []

/-- Modelled from the spec: `extractFieldsFromJson` as the spec's section 3
describes it, every descriptor named by its full dotted path from the data
source root. -/
def extractFieldsFullPaths (data : JSValue) : Except Unit (List FieldDesc) :=
  match data with
  | .arr .nil => .ok []
  | .arr (.cons x _) => if typeofIsObject x then runProcessModelSpec x else .ok []
  | .obj _ =>
    let m := jsGet data "model"
    if truthy m && typeofIsObject m then runProcessModelSpec m else runProcessModelSpec data
  | _ => .ok []

/-- The path carried by a start or end marker descriptor: its `name`
without the leading `#` or `/`. -/
def markerPath (f : FieldDesc) : String :=
  String.mk (f.name.data.drop 1)

/-- A stack-based bracket matcher over a descriptor sequence: start
markers push their path, end markers pop when the top carries the same
path, and the matcher fails (`none`) on underflow or on a path mismatch. -/
def runBrackets : List FieldDesc → List String → Option (List String)
  | [], st => some st
  | f :: fs, st =>
    if f.type = "loop-start" ∨ f.type = "object-start" then
      runBrackets fs (markerPath f :: st)
    else if f.type = "loop-end" ∨ f.type = "object-end" then
      match st with
      | [] => none
      | p :: rest => if markerPath f = p then runBrackets fs rest else none
    else runBrackets fs st

/-- Whether a descriptor list contains no loop-start marker, i.e. the
extraction met no array-of-objects. -/
def noLoopStart (fs : List FieldDesc) : Bool :=
  fs.all (fun f => f.type ≠ "loop-start")

mutual

/-- Structural size of a value, the measure for the mutual inductions. -/
def jsSize : JSValue → Nat
  | .null | .undefined | .bool _ | .num _ | .str _ => 1
  | .arr l => 1 + jsListSize l
  | .obj fs => 1 + jsFieldsSize fs

/-- Structural size of an array element list. -/
def jsListSize : JSList → Nat
  | .nil => 1
  | .cons x t => 1 + jsSize x + jsListSize t

/-- Structural size of an object entry list. -/
def jsFieldsSize : JSFields → Nat
  | .nil => 1
  | .cons _ v rest => 1 + jsSize v + jsFieldsSize rest

end

/-- The document text contains a substring matched by the placeholder
grammar: two opening braces, a nonempty run of characters other than a
closing brace, then two closing braces. -/
def hasPlaceholder (s : String) : Prop :=
  ∃ pre run suf : List Char,
    s.data = pre ++ '\x7b' :: '\x7b' :: (run ++ '\x7d' :: '\x7d' :: suf) ∧
    run ≠ [] ∧ '\x7d' ∉ run

/-- A descriptor's `placeholder` braces the final dotted component of its
`name` (with the same `#`/`/` marker prefix), rather than the whole name. -/
def placeholderUsesFinalKey (f : FieldDesc) : Prop :=
  ∃ pre rest k : String,
    (pre = "" ∨ pre = "#" ∨ pre = "/") ∧
    f.name = pre ++ rest ∧
    (rest = k ∨ ∃ q, rest = q ++ "." ++ k) ∧
    f.placeholder = "\x7b\x7b" ++ pre ++ k ++ "\x7d\x7d"

/-- Demo data `\x7b"items": [\x7b"n": 1\x7d]\x7d`. -/
def demoLoopData : JSValue :=
  .obj (.cons "items" (.arr (.cons (.obj (.cons "n" (.num 1) .nil)) .nil)) .nil)

/-- Demo data `\x7b"a": \x7b"items": [\x7b"x": 1\x7d]\x7d\x7d`: a loop nested inside an
object. -/
def demoNestedLoopData : JSValue :=
  .obj (.cons "a" (.obj (.cons "items"
    (.arr (.cons (.obj (.cons "x" (.num 1) .nil)) .nil)) .nil)) .nil)

/-- Demo data `\x7b"a": \x7b"c": 1\x7d\x7d`: a nested object, no loops. -/
def demoNestedObjData : JSValue :=
  .obj (.cons "a" (.obj (.cons "c" (.num 1) .nil)) .nil)

/-- Demo data `\x7b"b": \x7b"c": 1\x7d\x7d`. -/
def demoObjBData : JSValue :=
  .obj (.cons "b" (.obj (.cons "c" (.num 1) .nil)) .nil)

/-- Demo data `\x7b"model": \x7b"model": \x7b"a": 1\x7d, "a": 2\x7d\x7d`: the `model`
property itself owns an object-typed `model` property. -/
def demoDoubleModelData : JSValue :=
  .obj (.cons "model" (.obj (.cons "model" (.obj (.cons "a" (.num 1) .nil))
    (.cons "a" (.num 2) .nil))) .nil)

/-- Demo data `\x7b"model": \x7b"x": 1\x7d\x7d`. -/
def demoModelData : JSValue :=
  .obj (.cons "model" (.obj (.cons "x" (.num 1) .nil)) .nil)

/-- The entries of `demoModelData.model`. -/
def demoModelFields : JSFields := .cons "x" (.num 1) .nil

/-- The `\x7b\x7b#a\x7d\x7d` occurrence of the text `\x7b\x7b#a\x7d\x7d\x7b\x7b/b\x7d\x7d`. -/
def occHashA : Placeholder :=
  { full := "\x7b\x7b#a\x7d\x7d", field := "#a", position := 0 }

/-- The `\x7b\x7b/b\x7d\x7d` occurrence of the text `\x7b\x7b#a\x7d\x7d\x7b\x7b/b\x7d\x7d`. -/
def occSlashB : Placeholder :=
  { full := "\x7b\x7b/b\x7d\x7d", field := "/b", position := 6 }

/-- C1: the claim says `validateTemplate` never throws for any document
text and data.  The code violates it: on the text consisting of the two
markers open-a and open-b with empty-object data, the first marker pushes
`undefined` onto the context stack, and processing the second marker reads
`.model` off that `undefined` context inside `getNestedValue`, a thrown
`TypeError` (modelled as `.error ()`), instead of a report. -/
theorem validateTemplate_throws_on_marker_after_missing_marker :
    validateTemplate "\x7b\x7b#a\x7d\x7d\x7b\x7b#b\x7d\x7d" (.obj .nil) = .error () := rfl

/-- C8: on the single placeholder `foo` with empty-object data the
validator reports exactly one issue (which mentions `foo`), no warnings,
and a placeholder count of 1. -/
theorem validateTemplate_single_missing_field_report :
    validateTemplate "\x7b\x7bfoo\x7d\x7d" (.obj .nil) =
      .ok { issues := [msgMissingRoot "foo"], warnings := [], placeholderCount := 1 } ∧
    "foo".data <:+: (msgMissingRoot "foo").data :=
  ⟨rfl, by decide⟩

/-- C9: on the well-formed loop text over `items` with matching data the
validator reports no issues, no warnings, and a placeholder count of 3. -/
theorem validateTemplate_wellformed_loop_report :
    validateTemplate "\x7b\x7b#items\x7d\x7d\x7b\x7bname\x7d\x7d\x7b\x7b/items\x7d\x7d"
      (.obj (.cons "items" (.arr (.cons (.obj (.cons "name" (.str "x") .nil)) .nil)) .nil)) =
      .ok { issues := [], warnings := [], placeholderCount := 3 } := rfl

/-- C10: the claim says a root array of scalars (null included) yields the
empty descriptor sequence.  The code violates it at `[null]`: since
`typeof null === "object"`, the first element takes the object branch and
`Object.keys(null)` throws a `TypeError` (modelled as `.error ()`); an
array whose first element is a non-null scalar does yield the empty
sequence. -/
theorem extractFields_throws_on_null_first_element :
    extractFieldsFromJson (.arr (.cons .null .nil)) = .error () ∧
    extractFieldsFromJson (.arr (.cons (.num 1) (.cons .null .nil))) = .ok [] :=
  ⟨rfl, rfl⟩

theorem runBrackets_cons_other (f : FieldDesc) (fs : List FieldDesc) (st : List String)
    (h1 : ¬(f.type = "loop-start" ∨ f.type = "object-start"))
    (h2 : ¬(f.type = "loop-end" ∨ f.type = "object-end")) :
    runBrackets (f :: fs) st = runBrackets fs st := by
  simp only [runBrackets]
  rw [if_neg h1, if_neg h2]

theorem runBrackets_cons_startGeneric (f : FieldDesc) (fs : List FieldDesc) (st : List String)
    (h : f.type = "loop-start" ∨ f.type = "object-start") :
    runBrackets (f :: fs) st = runBrackets fs (markerPath f :: st) := by
  simp only [runBrackets]
  rw [if_pos h]

theorem runBrackets_cons_endNil (f : FieldDesc) (fs : List FieldDesc)
    (h1 : ¬(f.type = "loop-start" ∨ f.type = "object-start"))
    (h2 : f.type = "loop-end" ∨ f.type = "object-end") :
    runBrackets (f :: fs) [] = none := by
  simp only [runBrackets]
  rw [if_neg h1, if_pos h2]

theorem runBrackets_cons_endMatch (f : FieldDesc) (fs : List FieldDesc) (p : String)
    (st : List String)
    (h1 : ¬(f.type = "loop-start" ∨ f.type = "object-start"))
    (h2 : f.type = "loop-end" ∨ f.type = "object-end")
    (hp : markerPath f = p) :
    runBrackets (f :: fs) (p :: st) = runBrackets fs st := by
  simp only [runBrackets]
  rw [if_neg h1, if_pos h2, if_pos hp]

theorem runBrackets_cons_endMismatch (f : FieldDesc) (fs : List FieldDesc) (p : String)
    (st : List String)
    (h1 : ¬(f.type = "loop-start" ∨ f.type = "object-start"))
    (h2 : f.type = "loop-end" ∨ f.type = "object-end")
    (hp : ¬markerPath f = p) :
    runBrackets (f :: fs) (p :: st) = none := by
  simp only [runBrackets]
  rw [if_neg h1, if_pos h2, if_neg hp]

theorem runBrackets_append (a b : List FieldDesc) (st : List String) :
    runBrackets (a ++ b) st = (runBrackets a st).bind (runBrackets b) := by
  induction a generalizing st with
  | nil => simp [runBrackets]
  | cons f fs ih =>
    rw [List.cons_append]
    by_cases h1 : f.type = "loop-start" ∨ f.type = "object-start"
    · rw [runBrackets_cons_startGeneric f (fs ++ b) st h1,
        runBrackets_cons_startGeneric f fs st h1]
      exact ih _
    · by_cases h2 : f.type = "loop-end" ∨ f.type = "object-end"
      · cases st with
        | nil =>
          rw [runBrackets_cons_endNil f (fs ++ b) h1 h2, runBrackets_cons_endNil f fs h1 h2]
          rfl
        | cons p rest =>
          by_cases h3 : markerPath f = p
          · rw [runBrackets_cons_endMatch f (fs ++ b) p rest h1 h2 h3,
              runBrackets_cons_endMatch f fs p rest h1 h2 h3]
            exact ih _
          · rw [runBrackets_cons_endMismatch f (fs ++ b) p rest h1 h2 h3,
              runBrackets_cons_endMismatch f fs p rest h1 h2 h3]
            rfl
      · rw [runBrackets_cons_other f (fs ++ b) st h1 h2, runBrackets_cons_other f fs st h1 h2]
        exact ih _

theorem runBrackets_cons_skip (f : FieldDesc) (fs : List FieldDesc) (st : List String)
    (h : f.type = "simple" ∨ f.type = "array-simple") :
    runBrackets (f :: fs) st = runBrackets fs st := by
  rcases h with h | h <;> simp [runBrackets, h]

theorem runBrackets_cons_start (f : FieldDesc) (fs : List FieldDesc) (st : List String)
    (h : f.type = "loop-start" ∨ f.type = "object-start") :
    runBrackets (f :: fs) st = runBrackets fs (markerPath f :: st) := by
  rcases h with h | h <;> simp [runBrackets, h]

theorem runBrackets_cons_end (f : FieldDesc) (fs : List FieldDesc) (p : String)
    (st : List String) (h : f.type = "loop-end" ∨ f.type = "object-end")
    (hp : markerPath f = p) :
    runBrackets (f :: fs) (p :: st) = runBrackets fs st := by
  rcases h with h | h <;> simp [runBrackets, h, hp]

theorem markerPath_loopStart (cp key : String) (ind : Nat) :
    markerPath (loopStartDesc cp key ind) = cp := by
  cases cp with
  | mk d => rfl

theorem markerPath_loopEnd (cp key : String) (ind : Nat) :
    markerPath (loopEndDesc cp key ind) = cp := by
  cases cp with
  | mk d => rfl

theorem markerPath_objectStart (cp key : String) (ind : Nat) :
    markerPath (objectStartDesc cp key ind) = cp := by
  cases cp with
  | mk d => rfl

theorem markerPath_objectEnd (cp key : String) (ind : Nat) :
    markerPath (objectEndDesc cp key ind) = cp := by
  cases cp with
  | mk d => rfl

theorem runBrackets_single_skip (f : FieldDesc) (st : List String)
    (h : f.type = "simple" ∨ f.type = "array-simple") :
    runBrackets [f] st = some st := by
  rw [runBrackets_cons_skip f [] st h]
  rfl

theorem runBrackets_single_end (f : FieldDesc) (p : String) (st : List String)
    (h1 : ¬(f.type = "loop-start" ∨ f.type = "object-start"))
    (h2 : f.type = "loop-end" ∨ f.type = "object-end")
    (hp : markerPath f = p) :
    runBrackets [f] (p :: st) = some st := by
  rw [runBrackets_cons_endMatch f [] p st h1 h2 hp]
  rfl

theorem jsSizePos (v : JSValue) : 0 < jsSize v := by
  cases v <;> simp [jsSize]

theorem processBalancedAux : ∀ n : Nat,
    (∀ v key pp ind fs, jsSize v ≤ n → processValue v key pp ind = .ok fs →
      ∀ st, runBrackets fs st = some st) ∧
    (∀ i l pp ind fs, jsListSize l ≤ n → processElems i l pp ind = .ok fs →
      ∀ st, runBrackets fs st = some st) ∧
    (∀ l pp ind fs, jsFieldsSize l ≤ n → processFields l pp ind = .ok fs →
      ∀ st, runBrackets fs st = some st) := by
  intro n
  induction n using Nat.strong_induction_on with
  | _ n ih =>
    refine ⟨?_, ?_, ?_⟩
    · intro v key pp ind fs hsz hok st
      cases v with
      | null =>
        simp only [processValue, Except.ok.injEq] at hok
        subst hok
        exact runBrackets_single_skip _ _ (Or.inl rfl)
      | undefined =>
        simp only [processValue, Except.ok.injEq] at hok
        subst hok
        exact runBrackets_single_skip _ _ (Or.inl rfl)
      | bool b =>
        simp only [processValue, Except.ok.injEq] at hok
        subst hok
        exact runBrackets_single_skip _ _ (Or.inl rfl)
      | num m =>
        simp only [processValue, Except.ok.injEq] at hok
        subst hok
        exact runBrackets_single_skip _ _ (Or.inl rfl)
      | str s =>
        simp only [processValue, Except.ok.injEq] at hok
        subst hok
        exact runBrackets_single_skip _ _ (Or.inl rfl)
      | arr l =>
        cases l with
        | nil =>
          simp only [processValue, Except.ok.injEq] at hok
          subst hok
          exact runBrackets_single_skip _ _ (Or.inr rfl)
        | cons x tail =>
          cases x with
          | null => simp [processValue] at hok
          | obj fs2 =>
            simp only [processValue] at hok
            cases hpf : processFields fs2 key (ind + 1) with
            | error e => rw [hpf] at hok; simp at hok
            | ok kids =>
              rw [hpf] at hok
              simp only [Except.ok.injEq] at hok
              subst hok
              have hlt : jsFieldsSize fs2 < n := by
                simp [jsSize, jsListSize] at hsz
                omega
              have hkids := (ih (jsFieldsSize fs2) hlt).2.2 fs2 key (ind + 1) kids le_rfl hpf
              rw [runBrackets_cons_startGeneric _ _ _ (Or.inl rfl), markerPath_loopStart,
                runBrackets_append, hkids]
              show runBrackets [loopEndDesc _ key ind] (_ :: st) = some st
              exact runBrackets_single_end _ _ _ (by simp [loopEndDesc]) (Or.inl rfl) (markerPath_loopEnd _ key ind)
          | arr ys =>
            simp only [processValue] at hok
            cases hpe : processElems 0 ys key (ind + 1) with
            | error e => rw [hpe] at hok; simp at hok
            | ok kids =>
              rw [hpe] at hok
              simp only [Except.ok.injEq] at hok
              subst hok
              have hlt : jsListSize ys < n := by
                simp [jsSize, jsListSize] at hsz
                omega
              have hkids := (ih (jsListSize ys) hlt).2.1 0 ys key (ind + 1) kids le_rfl hpe
              rw [runBrackets_cons_startGeneric _ _ _ (Or.inl rfl), markerPath_loopStart,
                runBrackets_append, hkids]
              show runBrackets [loopEndDesc _ key ind] (_ :: st) = some st
              exact runBrackets_single_end _ _ _ (by simp [loopEndDesc]) (Or.inl rfl) (markerPath_loopEnd _ key ind)
          | bool b =>
            simp only [processValue, Except.ok.injEq] at hok
            subst hok
            exact runBrackets_single_skip _ _ (Or.inr rfl)
          | num m =>
            simp only [processValue, Except.ok.injEq] at hok
            subst hok
            exact runBrackets_single_skip _ _ (Or.inr rfl)
          | str s =>
            simp only [processValue, Except.ok.injEq] at hok
            subst hok
            exact runBrackets_single_skip _ _ (Or.inr rfl)
          | undefined =>
            simp only [processValue, Except.ok.injEq] at hok
            subst hok
            exact runBrackets_single_skip _ _ (Or.inr rfl)
      | obj ofields =>
        simp only [processValue] at hok
        cases hpf : processFields ofields
            (if pp = "" then key else pp ++ "." ++ key) (ind + 1) with
        | error e => rw [hpf] at hok; simp at hok
        | ok kids =>
          rw [hpf] at hok
          simp only [Except.ok.injEq] at hok
          subst hok
          have hlt : jsFieldsSize ofields < n := by
            simp [jsSize] at hsz
            omega
          have hkids := (ih (jsFieldsSize ofields) hlt).2.2 ofields _ (ind + 1) kids le_rfl hpf
          rw [runBrackets_cons_startGeneric _ _ _ (Or.inr rfl), markerPath_objectStart,
            runBrackets_append, hkids]
          show runBrackets [objectEndDesc _ key ind] (_ :: st) = some st
          exact runBrackets_single_end _ _ _ (by simp [objectEndDesc]) (Or.inr rfl) (markerPath_objectEnd _ key ind)
    · intro i l pp ind fs hsz hok st
      cases l with
      | nil =>
        simp only [processElems, Except.ok.injEq] at hok
        subst hok
        rfl
      | cons x rest =>
        simp only [processElems] at hok
        cases hpv : processValue x (toString i) pp ind with
        | error e => rw [hpv] at hok; simp at hok
        | ok fs1 =>
          rw [hpv] at hok
          cases hpe : processElems (i + 1) rest pp ind with
          | error e => rw [hpe] at hok; simp at hok
          | ok fs2 =>
            rw [hpe] at hok
            simp only [Except.ok.injEq] at hok
            subst hok
            have hx : jsSize x < n := by
              simp [jsListSize] at hsz
              omega
            have hr : jsListSize rest < n := by
              simp [jsListSize] at hsz
              have := jsSizePos x
              omega
            rw [runBrackets_append, (ih (jsSize x) hx).1 x (toString i) pp ind fs1 le_rfl hpv]
            exact (ih (jsListSize rest) hr).2.1 (i + 1) rest pp ind fs2 le_rfl hpe st
    · intro l pp ind fs hsz hok st
      cases l with
      | nil =>
        simp only [processFields, Except.ok.injEq] at hok
        subst hok
        rfl
      | cons k v rest =>
        simp only [processFields] at hok
        cases hpv : processValue v k pp ind with
        | error e => rw [hpv] at hok; simp at hok
        | ok fs1 =>
          rw [hpv] at hok
          cases hpf : processFields rest pp ind with
          | error e => rw [hpf] at hok; simp at hok
          | ok fs2 =>
            rw [hpf] at hok
            simp only [Except.ok.injEq] at hok
            subst hok
            have hx : jsSize v < n := by
              simp [jsFieldsSize] at hsz
              omega
            have hr : jsFieldsSize rest < n := by
              simp [jsFieldsSize] at hsz
              have := jsSizePos v
              omega
            rw [runBrackets_append, (ih (jsSize v) hx).1 v k pp ind fs1 le_rfl hpv]
            exact (ih (jsFieldsSize rest) hr).2.2 rest pp ind fs2 le_rfl hpf st

theorem processStrChars_balanced (cs : List Char) : ∀ i fs,
    processStrChars i cs = .ok fs → ∀ st, runBrackets fs st = some st := by
  induction cs with
  | nil =>
    intro i fs h st
    simp only [processStrChars, Except.ok.injEq] at h
    subst h
    rfl
  | cons c rest ih =>
    intro i fs h st
    simp only [processStrChars, processValue] at h
    cases hr : processStrChars (i + 1) rest with
    | error e => rw [hr] at h; simp at h
    | ok fs2 =>
      rw [hr] at h
      simp only [Except.ok.injEq] at h
      subst h
      rw [runBrackets_append, runBrackets_single_skip _ _ (Or.inl rfl)]
      exact ih (i + 1) fs2 hr st

theorem runProcessModel_balanced (x : JSValue) (fs : List FieldDesc)
    (h : runProcessModel x = .ok fs) : ∀ st, runBrackets fs st = some st := by
  intro st
  cases x with
  | null => simp [runProcessModel] at h
  | undefined => simp [runProcessModel] at h
  | bool b =>
    simp only [runProcessModel, Except.ok.injEq] at h
    subst h
    rfl
  | num m =>
    simp only [runProcessModel, Except.ok.injEq] at h
    subst h
    rfl
  | str s =>
    simp only [runProcessModel] at h
    exact processStrChars_balanced s.data 0 fs h st
  | arr elems =>
    simp only [runProcessModel] at h
    exact (processBalancedAux (jsListSize elems)).2.1 0 elems "" 0 fs le_rfl h st
  | obj ofields =>
    simp only [runProcessModel] at h
    exact (processBalancedAux (jsFieldsSize ofields)).2.2 ofields "" 0 fs le_rfl h st

/-- C2: every descriptor sequence produced by `extractFieldsFromJson` is a
well-nested bracket sequence: the stack-based matcher `runBrackets`, which
pushes every loop-start/object-start path and pops only a matching
loop-end/object-end path, runs over the sequence without underflow and
ends with an empty stack (so each start marker at a path is closed by
exactly one matching end marker after its descendants). -/
theorem extractFields_wellBracketed (d : JSValue) (fs : List FieldDesc)
    (h : extractFieldsFromJson d = .ok fs) : runBrackets fs [] = some [] := by
  cases d with
  | null =>
    simp only [extractFieldsFromJson, Except.ok.injEq] at h
    subst h
    rfl
  | undefined =>
    simp only [extractFieldsFromJson, Except.ok.injEq] at h
    subst h
    rfl
  | bool b =>
    simp only [extractFieldsFromJson, Except.ok.injEq] at h
    subst h
    rfl
  | num m =>
    simp only [extractFieldsFromJson, Except.ok.injEq] at h
    subst h
    rfl
  | str s =>
    simp only [extractFieldsFromJson, Except.ok.injEq] at h
    subst h
    rfl
  | arr xs =>
    cases xs with
    | nil =>
      simp only [extractFieldsFromJson, Except.ok.injEq] at h
      subst h
      rfl
    | cons x tail =>
      simp only [extractFieldsFromJson] at h
      by_cases ht : typeofIsObject x
      · rw [if_pos ht] at h
        exact runProcessModel_balanced x fs h []
      · rw [if_neg ht] at h
        simp only [Except.ok.injEq] at h
        subst h
        rfl
  | obj ofields =>
    simp only [extractFieldsFromJson] at h
    by_cases hm : truthy (jsGet (JSValue.obj ofields) "model")
        && typeofIsObject (jsGet (JSValue.obj ofields) "model")
    · rw [if_pos hm] at h
      exact runProcessModel_balanced _ fs h []
    · rw [if_neg hm] at h
      exact runProcessModel_balanced _ fs h []

/-- Witness for C2: the data with one array-of-objects extracts to a
loop-start, a simple field and a loop-end, and the matcher accepts it. -/
theorem extractFields_wellBracketed_witness :
    extractFieldsFromJson demoLoopData =
      .ok [loopStartDesc "items" "items" 0, simpleDesc "items.n" "n" 1,
        loopEndDesc "items" "items" 0] ∧
    runBrackets [loopStartDesc "items" "items" 0, simpleDesc "items.n" "n" 1,
      loopEndDesc "items" "items" 0] [] = some [] :=
  ⟨rfl, extractFields_wellBracketed demoLoopData _ rfl⟩

theorem string_empty_append (s : String) : "" ++ s = s := by
  cases s with
  | mk d => rfl

theorem currentPath_split (pp key : String) :
    (if pp = "" then key else pp ++ "." ++ key) = key ∨
      ∃ q, (if pp = "" then key else pp ++ "." ++ key) = q ++ "." ++ key := by
  by_cases hpp : pp = ""
  · exact Or.inl (if_pos hpp)
  · exact Or.inr ⟨pp, if_neg hpp⟩

theorem shape_simpleDesc (pp key : String) (ind : Nat) :
    placeholderUsesFinalKey
      (simpleDesc (if pp = "" then key else pp ++ "." ++ key) key ind) :=
  ⟨"", if pp = "" then key else pp ++ "." ++ key, key, Or.inl rfl,
    (string_empty_append _).symm, currentPath_split pp key, rfl⟩

theorem shape_arraySimpleDesc (pp key : String) (ind : Nat) :
    placeholderUsesFinalKey
      (arraySimpleDesc (if pp = "" then key else pp ++ "." ++ key) key ind) :=
  ⟨"", if pp = "" then key else pp ++ "." ++ key, key, Or.inl rfl,
    (string_empty_append _).symm, currentPath_split pp key, rfl⟩

theorem shape_loopStartDesc (pp key : String) (ind : Nat) :
    placeholderUsesFinalKey
      (loopStartDesc (if pp = "" then key else pp ++ "." ++ key) key ind) :=
  ⟨"#", if pp = "" then key else pp ++ "." ++ key, key, Or.inr (Or.inl rfl),
    rfl, currentPath_split pp key, rfl⟩

theorem shape_loopEndDesc (pp key : String) (ind : Nat) :
    placeholderUsesFinalKey
      (loopEndDesc (if pp = "" then key else pp ++ "." ++ key) key ind) :=
  ⟨"/", if pp = "" then key else pp ++ "." ++ key, key, Or.inr (Or.inr rfl),
    rfl, currentPath_split pp key, rfl⟩

theorem shape_objectStartDesc (pp key : String) (ind : Nat) :
    placeholderUsesFinalKey
      (objectStartDesc (if pp = "" then key else pp ++ "." ++ key) key ind) :=
  ⟨"#", if pp = "" then key else pp ++ "." ++ key, key, Or.inr (Or.inl rfl),
    rfl, currentPath_split pp key, rfl⟩

theorem shape_objectEndDesc (pp key : String) (ind : Nat) :
    placeholderUsesFinalKey
      (objectEndDesc (if pp = "" then key else pp ++ "." ++ key) key ind) :=
  ⟨"/", if pp = "" then key else pp ++ "." ++ key, key, Or.inr (Or.inr rfl),
    rfl, currentPath_split pp key, rfl⟩

theorem processShapeAux : ∀ n : Nat,
    (∀ v key pp ind fs, jsSize v ≤ n → processValue v key pp ind = .ok fs →
      ∀ f ∈ fs, placeholderUsesFinalKey f) ∧
    (∀ i l pp ind fs, jsListSize l ≤ n → processElems i l pp ind = .ok fs →
      ∀ f ∈ fs, placeholderUsesFinalKey f) ∧
    (∀ l pp ind fs, jsFieldsSize l ≤ n → processFields l pp ind = .ok fs →
      ∀ f ∈ fs, placeholderUsesFinalKey f) := by
  intro n
  induction n using Nat.strong_induction_on with
  | _ n ih =>
    refine ⟨?_, ?_, ?_⟩
    · intro v key pp ind fs hsz hok f hf
      cases v with
      | null =>
        simp only [processValue, Except.ok.injEq] at hok
        subst hok
        simp only [List.mem_singleton] at hf
        subst hf
        exact shape_simpleDesc pp key ind
      | undefined =>
        simp only [processValue, Except.ok.injEq] at hok
        subst hok
        simp only [List.mem_singleton] at hf
        subst hf
        exact shape_simpleDesc pp key ind
      | bool b =>
        simp only [processValue, Except.ok.injEq] at hok
        subst hok
        simp only [List.mem_singleton] at hf
        subst hf
        exact shape_simpleDesc pp key ind
      | num m =>
        simp only [processValue, Except.ok.injEq] at hok
        subst hok
        simp only [List.mem_singleton] at hf
        subst hf
        exact shape_simpleDesc pp key ind
      | str s =>
        simp only [processValue, Except.ok.injEq] at hok
        subst hok
        simp only [List.mem_singleton] at hf
        subst hf
        exact shape_simpleDesc pp key ind
      | arr l =>
        cases l with
        | nil =>
          simp only [processValue, Except.ok.injEq] at hok
          subst hok
          simp only [List.mem_singleton] at hf
          subst hf
          exact shape_arraySimpleDesc pp key ind
        | cons x tail =>
          cases x with
          | null => simp [processValue] at hok
          | obj fs2 =>
            simp only [processValue] at hok
            cases hpf : processFields fs2 key (ind + 1) with
            | error e => rw [hpf] at hok; simp at hok
            | ok kids =>
              rw [hpf] at hok
              simp only [Except.ok.injEq] at hok
              subst hok
              have hlt : jsFieldsSize fs2 < n := by
                simp [jsSize, jsListSize] at hsz
                omega
              rcases List.mem_cons.mp hf with hfs | hfs
              · subst hfs
                exact shape_loopStartDesc pp key ind
              · rcases List.mem_append.mp hfs with hk | he
                · exact (ih (jsFieldsSize fs2) hlt).2.2 fs2 key (ind + 1) kids le_rfl hpf f hk
                · simp only [List.mem_singleton] at he
                  subst he
                  exact shape_loopEndDesc pp key ind
          | arr ys =>
            simp only [processValue] at hok
            cases hpe : processElems 0 ys key (ind + 1) with
            | error e => rw [hpe] at hok; simp at hok
            | ok kids =>
              rw [hpe] at hok
              simp only [Except.ok.injEq] at hok
              subst hok
              have hlt : jsListSize ys < n := by
                simp [jsSize, jsListSize] at hsz
                omega
              rcases List.mem_cons.mp hf with hfs | hfs
              · subst hfs
                exact shape_loopStartDesc pp key ind
              · rcases List.mem_append.mp hfs with hk | he
                · exact (ih (jsListSize ys) hlt).2.1 0 ys key (ind + 1) kids le_rfl hpe f hk
                · simp only [List.mem_singleton] at he
                  subst he
                  exact shape_loopEndDesc pp key ind
          | bool b =>
            simp only [processValue, Except.ok.injEq] at hok
            subst hok
            simp only [List.mem_singleton] at hf
            subst hf
            exact shape_arraySimpleDesc pp key ind
          | num m =>
            simp only [processValue, Except.ok.injEq] at hok
            subst hok
            simp only [List.mem_singleton] at hf
            subst hf
            exact shape_arraySimpleDesc pp key ind
          | str s =>
            simp only [processValue, Except.ok.injEq] at hok
            subst hok
            simp only [List.mem_singleton] at hf
            subst hf
            exact shape_arraySimpleDesc pp key ind
          | undefined =>
            simp only [processValue, Except.ok.injEq] at hok
            subst hok
            simp only [List.mem_singleton] at hf
            subst hf
            exact shape_arraySimpleDesc pp key ind
      | obj ofields =>
        simp only [processValue] at hok
        cases hpf : processFields ofields
            (if pp = "" then key else pp ++ "." ++ key) (ind + 1) with
        | error e => rw [hpf] at hok; simp at hok
        | ok kids =>
          rw [hpf] at hok
          simp only [Except.ok.injEq] at hok
          subst hok
          have hlt : jsFieldsSize ofields < n := by
            simp [jsSize] at hsz
            omega
          rcases List.mem_cons.mp hf with hfs | hfs
          · subst hfs
            exact shape_objectStartDesc pp key ind
          · rcases List.mem_append.mp hfs with hk | he
            · exact (ih (jsFieldsSize ofields) hlt).2.2 ofields _ (ind + 1) kids le_rfl hpf f hk
            · simp only [List.mem_singleton] at he
              subst he
              exact shape_objectEndDesc pp key ind
    · intro i l pp ind fs hsz hok f hf
      cases l with
      | nil =>
        simp only [processElems, Except.ok.injEq] at hok
        subst hok
        simp at hf
      | cons x rest =>
        simp only [processElems] at hok
        cases hpv : processValue x (toString i) pp ind with
        | error e => rw [hpv] at hok; simp at hok
        | ok fs1 =>
          rw [hpv] at hok
          cases hpe : processElems (i + 1) rest pp ind with
          | error e => rw [hpe] at hok; simp at hok
          | ok fs2 =>
            rw [hpe] at hok
            simp only [Except.ok.injEq] at hok
            subst hok
            have hx : jsSize x < n := by
              simp [jsListSize] at hsz
              omega
            have hr : jsListSize rest < n := by
              simp [jsListSize] at hsz
              have := jsSizePos x
              omega
            rcases List.mem_append.mp hf with h1 | h2
            · exact (ih (jsSize x) hx).1 x (toString i) pp ind fs1 le_rfl hpv f h1
            · exact (ih (jsListSize rest) hr).2.1 (i + 1) rest pp ind fs2 le_rfl hpe f h2
    · intro l pp ind fs hsz hok f hf
      cases l with
      | nil =>
        simp only [processFields, Except.ok.injEq] at hok
        subst hok
        simp at hf
      | cons k v rest =>
        simp only [processFields] at hok
        cases hpv : processValue v k pp ind with
        | error e => rw [hpv] at hok; simp at hok
        | ok fs1 =>
          rw [hpv] at hok
          cases hpf : processFields rest pp ind with
          | error e => rw [hpf] at hok; simp at hok
          | ok fs2 =>
            rw [hpf] at hok
            simp only [Except.ok.injEq] at hok
            subst hok
            have hx : jsSize v < n := by
              simp [jsFieldsSize] at hsz
              omega
            have hr : jsFieldsSize rest < n := by
              simp [jsFieldsSize] at hsz
              have := jsSizePos v
              omega
            rcases List.mem_append.mp hf with h1 | h2
            · exact (ih (jsSize v) hx).1 v k pp ind fs1 le_rfl hpv f h1
            · exact (ih (jsFieldsSize rest) hr).2.2 rest pp ind fs2 le_rfl hpf f h2

theorem processStrChars_shape (cs : List Char) : ∀ i fs,
    processStrChars i cs = .ok fs → ∀ f ∈ fs, placeholderUsesFinalKey f := by
  induction cs with
  | nil =>
    intro i fs h f hf
    simp only [processStrChars, Except.ok.injEq] at h
    subst h
    simp at hf
  | cons c rest ih =>
    intro i fs h f hf
    simp only [processStrChars, processValue] at h
    cases hr : processStrChars (i + 1) rest with
    | error e => rw [hr] at h; simp at h
    | ok fs2 =>
      rw [hr] at h
      simp only [Except.ok.injEq] at h
      subst h
      rcases List.mem_append.mp hf with h1 | h2
      · simp only [List.mem_singleton] at h1
        subst h1
        simpa using shape_simpleDesc "" (toString i) 0
      · exact ih (i + 1) fs2 hr f h2

theorem runProcessModel_shape (x : JSValue) (fs : List FieldDesc)
    (h : runProcessModel x = .ok fs) : ∀ f ∈ fs, placeholderUsesFinalKey f := by
  cases x with
  | null => simp [runProcessModel] at h
  | undefined => simp [runProcessModel] at h
  | bool b =>
    simp only [runProcessModel, Except.ok.injEq] at h
    subst h
    intro f hf
    simp at hf
  | num m =>
    simp only [runProcessModel, Except.ok.injEq] at h
    subst h
    intro f hf
    simp at hf
  | str s =>
    simp only [runProcessModel] at h
    exact processStrChars_shape s.data 0 fs h
  | arr elems =>
    simp only [runProcessModel] at h
    exact (processShapeAux (jsListSize elems)).2.1 0 elems "" 0 fs le_rfl h
  | obj ofields =>
    simp only [runProcessModel] at h
    exact (processShapeAux (jsFieldsSize ofields)).2.2 ofields "" 0 fs le_rfl h

/-- C4 amended: for every emitted descriptor, `placeholder` braces the
final dotted component of the descriptor's path with the same marker
prefix as `name` (the source builds placeholders from `key`, not from the
full `currentPath`), so `placeholder` equals the open braces, `name` and
the close braces only for top-level descriptors. -/
theorem extractFields_placeholder_usesFinalKey (d : JSValue) (fs : List FieldDesc)
    (h : extractFieldsFromJson d = .ok fs) : ∀ f ∈ fs, placeholderUsesFinalKey f := by
  cases d with
  | null =>
    simp only [extractFieldsFromJson, Except.ok.injEq] at h
    subst h
    intro f hf
    simp at hf
  | undefined =>
    simp only [extractFieldsFromJson, Except.ok.injEq] at h
    subst h
    intro f hf
    simp at hf
  | bool b =>
    simp only [extractFieldsFromJson, Except.ok.injEq] at h
    subst h
    intro f hf
    simp at hf
  | num m =>
    simp only [extractFieldsFromJson, Except.ok.injEq] at h
    subst h
    intro f hf
    simp at hf
  | str s =>
    simp only [extractFieldsFromJson, Except.ok.injEq] at h
    subst h
    intro f hf
    simp at hf
  | arr xs =>
    cases xs with
    | nil =>
      simp only [extractFieldsFromJson, Except.ok.injEq] at h
      subst h
      intro f hf
      simp at hf
    | cons x tail =>
      simp only [extractFieldsFromJson] at h
      by_cases ht : typeofIsObject x
      · rw [if_pos ht] at h
        exact runProcessModel_shape x fs h
      · rw [if_neg ht] at h
        simp only [Except.ok.injEq] at h
        subst h
        intro f hf
        simp at hf
  | obj ofields =>
    simp only [extractFieldsFromJson] at h
    by_cases hm : truthy (jsGet (JSValue.obj ofields) "model")
        && typeofIsObject (jsGet (JSValue.obj ofields) "model")
    · rw [if_pos hm] at h
      exact runProcessModel_shape _ fs h
    · rw [if_neg hm] at h
      exact runProcessModel_shape _ fs h

/-- C4 counterexample: on the nested object data, the descriptor named
`b.c` carries the placeholder that braces only `c`, which differs from the
braced full name, so `placeholder` is not always braces around `name`. -/
theorem extractFields_placeholder_not_braced_name :
    (extractFieldsFromJson demoObjBData).map (fun l => l.map fun f => (f.name, f.placeholder)) =
      .ok [("#b", "\x7b\x7b#b\x7d\x7d"), ("b.c", "\x7b\x7bc\x7d\x7d"), ("/b", "\x7b\x7b/b\x7d\x7d")] ∧
    ("\x7b\x7bc\x7d\x7d" : String) ≠ "\x7b\x7b" ++ "b.c" ++ "\x7d\x7d" :=
  ⟨rfl, by decide⟩

/-- Witness for the amended C4 on the nested object data: the inner simple
descriptor satisfies the final-key placeholder shape. -/
theorem extractFields_placeholder_usesFinalKey_witness :
    extractFieldsFromJson demoObjBData =
      .ok [objectStartDesc "b" "b" 0, simpleDesc "b.c" "c" 1, objectEndDesc "b" "b" 0] ∧
    placeholderUsesFinalKey (simpleDesc "b.c" "c" 1) :=
  ⟨rfl, extractFields_placeholder_usesFinalKey demoObjBData _ rfl
    (simpleDesc "b.c" "c" 1) (by decide)⟩

theorem noLoopStart_cons (f : FieldDesc) (fs : List FieldDesc) :
    noLoopStart (f :: fs) = (decide (f.type ≠ "loop-start") && noLoopStart fs) := by
  simp [noLoopStart]

theorem noLoopStart_append (a b : List FieldDesc) :
    noLoopStart (a ++ b) = (noLoopStart a && noLoopStart b) := by
  simp [noLoopStart, List.all_append]

theorem processSpecEqAux : ∀ n : Nat,
    (∀ v key pp ind fs, jsSize v ≤ n → processValue v key pp ind = .ok fs →
      noLoopStart fs = true → processValueSpec v key pp ind = .ok fs) ∧
    (∀ i l pp ind fs, jsListSize l ≤ n → processElems i l pp ind = .ok fs →
      noLoopStart fs = true → processElemsSpec i l pp ind = .ok fs) ∧
    (∀ l pp ind fs, jsFieldsSize l ≤ n → processFields l pp ind = .ok fs →
      noLoopStart fs = true → processFieldsSpec l pp ind = .ok fs) := by
  intro n
  induction n using Nat.strong_induction_on with
  | _ n ih =>
    refine ⟨?_, ?_, ?_⟩
    · intro v key pp ind fs hsz hok hno
      cases v with
      | null =>
        simp only [processValue, Except.ok.injEq] at hok
        subst hok
        rfl
      | undefined =>
        simp only [processValue, Except.ok.injEq] at hok
        subst hok
        rfl
      | bool b =>
        simp only [processValue, Except.ok.injEq] at hok
        subst hok
        rfl
      | num m =>
        simp only [processValue, Except.ok.injEq] at hok
        subst hok
        rfl
      | str s =>
        simp only [processValue, Except.ok.injEq] at hok
        subst hok
        rfl
      | arr l =>
        cases l with
        | nil =>
          simp only [processValue, Except.ok.injEq] at hok
          subst hok
          rfl
        | cons x tail =>
          cases x with
          | null => simp [processValue] at hok
          | obj fs2 =>
            simp only [processValue] at hok
            cases hpf : processFields fs2 key (ind + 1) with
            | error e => rw [hpf] at hok; simp at hok
            | ok kids =>
              rw [hpf] at hok
              simp only [Except.ok.injEq] at hok
              subst hok
              simp [noLoopStart, loopStartDesc] at hno
          | arr ys =>
            simp only [processValue] at hok
            cases hpe : processElems 0 ys key (ind + 1) with
            | error e => rw [hpe] at hok; simp at hok
            | ok kids =>
              rw [hpe] at hok
              simp only [Except.ok.injEq] at hok
              subst hok
              simp [noLoopStart, loopStartDesc] at hno
          | bool b =>
            simp only [processValue, Except.ok.injEq] at hok
            subst hok
            rfl
          | num m =>
            simp only [processValue, Except.ok.injEq] at hok
            subst hok
            rfl
          | str s =>
            simp only [processValue, Except.ok.injEq] at hok
            subst hok
            rfl
          | undefined =>
            simp only [processValue, Except.ok.injEq] at hok
            subst hok
            rfl
      | obj ofields =>
        simp only [processValue] at hok
        cases hpf : processFields ofields
            (if pp = "" then key else pp ++ "." ++ key) (ind + 1) with
        | error e => rw [hpf] at hok; simp at hok
        | ok kids =>
          rw [hpf] at hok
          simp only [Except.ok.injEq] at hok
          subst hok
          have hlt : jsFieldsSize ofields < n := by
            simp [jsSize] at hsz
            omega
          rw [noLoopStart_cons, noLoopStart_append, Bool.and_eq_true, Bool.and_eq_true] at hno
          have hspec := (ih (jsFieldsSize ofields) hlt).2.2 ofields _ (ind + 1) kids le_rfl
            hpf hno.2.1
          simp only [processValueSpec, hspec]
    · intro i l pp ind fs hsz hok hno
      cases l with
      | nil =>
        simp only [processElems, Except.ok.injEq] at hok
        subst hok
        rfl
      | cons x rest =>
        simp only [processElems] at hok
        cases hpv : processValue x (toString i) pp ind with
        | error e => rw [hpv] at hok; simp at hok
        | ok fs1 =>
          rw [hpv] at hok
          cases hpe : processElems (i + 1) rest pp ind with
          | error e => rw [hpe] at hok; simp at hok
          | ok fs2 =>
            rw [hpe] at hok
            simp only [Except.ok.injEq] at hok
            subst hok
            rw [noLoopStart_append, Bool.and_eq_true] at hno
            have hx : jsSize x < n := by
              simp [jsListSize] at hsz
              omega
            have hr : jsListSize rest < n := by
              simp [jsListSize] at hsz
              have := jsSizePos x
              omega
            have h1 := (ih (jsSize x) hx).1 x (toString i) pp ind fs1 le_rfl hpv hno.1
            have h2 := (ih (jsListSize rest) hr).2.1 (i + 1) rest pp ind fs2 le_rfl hpe hno.2
            simp only [processElemsSpec, h1, h2]
    · intro l pp ind fs hsz hok hno
      cases l with
      | nil =>
        simp only [processFields, Except.ok.injEq] at hok
        subst hok
        rfl
      | cons k v rest =>
        simp only [processFields] at hok
        cases hpv : processValue v k pp ind with
        | error e => rw [hpv] at hok; simp at hok
        | ok fs1 =>
          rw [hpv] at hok
          cases hpf : processFields rest pp ind with
          | error e => rw [hpf] at hok; simp at hok
          | ok fs2 =>
            rw [hpf] at hok
            simp only [Except.ok.injEq] at hok
            subst hok
            rw [noLoopStart_append, Bool.and_eq_true] at hno
            have hx : jsSize v < n := by
              simp [jsFieldsSize] at hsz
              omega
            have hr : jsFieldsSize rest < n := by
              simp [jsFieldsSize] at hsz
              have := jsSizePos v
              omega
            have h1 := (ih (jsSize v) hx).1 v k pp ind fs1 le_rfl hpv hno.1
            have h2 := (ih (jsFieldsSize rest) hr).2.2 rest pp ind fs2 le_rfl hpf hno.2
            simp only [processFieldsSpec, h1, h2]

theorem processStrChars_spec_eq (cs : List Char) : ∀ i,
    processStrCharsSpec i cs = processStrChars i cs := by
  induction cs with
  | nil => intro i; rfl
  | cons c rest ih =>
    intro i
    simp only [processStrChars, processStrCharsSpec, processValue, processValueSpec, ih (i + 1)]

theorem runProcessModelSpec_eq (x : JSValue) (fs : List FieldDesc)
    (h : runProcessModel x = .ok fs) (hno : noLoopStart fs = true) :
    runProcessModelSpec x = .ok fs := by
  cases x with
  | null => simp [runProcessModel] at h
  | undefined => simp [runProcessModel] at h
  | bool b =>
    simp only [runProcessModel, Except.ok.injEq] at h
    subst h
    rfl
  | num m =>
    simp only [runProcessModel, Except.ok.injEq] at h
    subst h
    rfl
  | str s =>
    simp only [runProcessModel] at h
    simp only [runProcessModelSpec, processStrChars_spec_eq]
    exact h
  | arr elems =>
    simp only [runProcessModel] at h
    exact (processSpecEqAux (jsListSize elems)).2.1 0 elems "" 0 fs le_rfl h hno
  | obj ofields =>
    simp only [runProcessModel] at h
    exact (processSpecEqAux (jsFieldsSize ofields)).2.2 ofields "" 0 fs le_rfl h hno

/-- C3 amended: when the extraction met no array-of-objects (no loop-start
descriptor is emitted), the code extractor agrees with the spec-modelled
extractor `extractFieldsFullPaths`, whose descriptor names are the full
dotted paths from the data source root; inside a loop body the code
instead restarts the parent path at the loop's own key (line 75 passes
`key`, not `currentPath`). -/
theorem extractFields_fullPaths_of_noLoopStart (d : JSValue) (fs : List FieldDesc)
    (h : extractFieldsFromJson d = .ok fs) (hno : noLoopStart fs = true) :
    extractFieldsFullPaths d = .ok fs := by
  cases d with
  | null =>
    simp only [extractFieldsFromJson, Except.ok.injEq] at h
    subst h
    rfl
  | undefined =>
    simp only [extractFieldsFromJson, Except.ok.injEq] at h
    subst h
    rfl
  | bool b =>
    simp only [extractFieldsFromJson, Except.ok.injEq] at h
    subst h
    rfl
  | num m =>
    simp only [extractFieldsFromJson, Except.ok.injEq] at h
    subst h
    rfl
  | str s =>
    simp only [extractFieldsFromJson, Except.ok.injEq] at h
    subst h
    rfl
  | arr xs =>
    cases xs with
    | nil =>
      simp only [extractFieldsFromJson, Except.ok.injEq] at h
      subst h
      rfl
    | cons x tail =>
      simp only [extractFieldsFromJson] at h
      simp only [extractFieldsFullPaths]
      by_cases ht : typeofIsObject x
      · rw [if_pos ht] at h
        rw [if_pos ht]
        exact runProcessModelSpec_eq x fs h hno
      · rw [if_neg ht] at h
        rw [if_neg ht]
        exact h
  | obj ofields =>
    simp only [extractFieldsFromJson] at h
    simp only [extractFieldsFullPaths]
    by_cases hm : truthy (jsGet (JSValue.obj ofields) "model")
        && typeofIsObject (jsGet (JSValue.obj ofields) "model")
    · rw [if_pos hm] at h
      rw [if_pos hm]
      exact runProcessModelSpec_eq _ fs h hno
    · rw [if_neg hm] at h
      rw [if_neg hm]
      exact runProcessModelSpec_eq _ fs h hno

/-- C3 counterexample: on a loop nested inside an object, the simple field
at full path `a.items.x` is emitted with name `items.x` (the path restarts
at the loop key `items`), while the spec-modelled extractor names it
`a.items.x`; so descriptor names are not always full dotted paths. -/
theorem extractFields_name_truncated_in_loop :
    (extractFieldsFromJson demoNestedLoopData).map (fun l => l.map fun f => f.name) =
      .ok ["#a", "#a.items", "items.x", "/a.items", "/a"] ∧
    (extractFieldsFullPaths demoNestedLoopData).map (fun l => l.map fun f => f.name) =
      .ok ["#a", "#a.items", "a.items.x", "/a.items", "/a"] ∧
    ("items.x" : String) ≠ "a.items.x" :=
  ⟨rfl, rfl, by decide⟩

/-- Witness for the amended C3 on loop-free nested data: the code output
has no loop-start descriptor and equals the spec-modelled full-path
output. -/
theorem extractFields_fullPaths_of_noLoopStart_witness :
    extractFieldsFullPaths demoNestedObjData =
      .ok [objectStartDesc "a" "a" 0, simpleDesc "a.c" "c" 1, objectEndDesc "a" "a" 0] :=
  extractFields_fullPaths_of_noLoopStart demoNestedObjData _ rfl (by decide)

/-- C5 amended: the `model` unwrapping of `getNestedValue` is transparent
provided the unwrapped `model` object does not itself carry a truthy
object-typed `model` property; in that case looking a path up on the data
equals looking it up on `data.model` directly. -/
theorem getNestedValue_model_transparent (data : JSValue) (mfields : JSFields)
    (hm : jsGet data "model" = .obj mfields)
    (hno : (truthy (jsGet (JSValue.obj mfields) "model")
      && typeofIsObject (jsGet (JSValue.obj mfields) "model")) = false)
    (path : String) :
    getNestedValue data path = getNestedValue (JSValue.obj mfields) path := by
  cases data with
  | null => rw [show jsGet JSValue.null "model" = JSValue.undefined from rfl] at hm; simp at hm
  | undefined =>
    rw [show jsGet JSValue.undefined "model" = JSValue.undefined from rfl] at hm
    simp at hm
  | bool b =>
    rw [show jsGet (JSValue.bool b) "model" = JSValue.undefined from rfl] at hm
    simp at hm
  | num m =>
    rw [show jsGet (JSValue.num m) "model" = JSValue.undefined from rfl] at hm
    simp at hm
  | str s =>
    rw [show jsGet (JSValue.str s) "model" = JSValue.undefined from rfl] at hm
    simp at hm
  | arr xs =>
    rw [show jsGet (JSValue.arr xs) "model" = JSValue.undefined from rfl] at hm
    simp at hm
  | obj fields =>
    have hL : getNestedValue (JSValue.obj fields) path =
        .ok (descend (JSValue.obj mfields) ((splitDotC path.data).map String.mk)) := by
      simp [getNestedValue, jsAccess, isNullish, hm, truthy, typeofIsObject]
    have hR : getNestedValue (JSValue.obj mfields) path =
        .ok (descend (JSValue.obj mfields) ((splitDotC path.data).map String.mk)) := by
      simp [getNestedValue, jsAccess, isNullish, hno]
    rw [hL, hR]

/-- C5 counterexample: when `data.model` itself owns an object-typed
`model` property, `getNestedValue data "a"` resolves against `data.model`
but `getNestedValue data.model "a"` unwraps a second time and resolves
against `data.model.model`, so the two disagree. -/
theorem getNestedValue_model_not_transparent :
    getNestedValue demoDoubleModelData "a" = .ok (.num 2) ∧
    jsGet demoDoubleModelData "model" =
      .obj (.cons "model" (.obj (.cons "a" (.num 1) .nil)) (.cons "a" (.num 2) .nil)) ∧
    getNestedValue
      (.obj (.cons "model" (.obj (.cons "a" (.num 1) .nil)) (.cons "a" (.num 2) .nil))) "a" =
      .ok (.num 1) ∧
    getNestedValue demoDoubleModelData "a" ≠
      getNestedValue
        (.obj (.cons "model" (.obj (.cons "a" (.num 1) .nil)) (.cons "a" (.num 2) .nil))) "a" := by
  refine ⟨rfl, rfl, rfl, ?_⟩
  intro h
  have h2 : (Except.ok (JSValue.num 2) : Except Unit JSValue) = Except.ok (JSValue.num 1) := h
  simp at h2

/-- Witness for the amended C5: on data whose `model` object has no inner
`model` property, the lookup through the data equals the lookup on the
model object. -/
theorem getNestedValue_model_transparent_witness :
    jsGet demoModelData "model" = .obj demoModelFields ∧
    getNestedValue demoModelData "x" = getNestedValue (.obj demoModelFields) "x" :=
  ⟨rfl, getNestedValue_model_transparent demoModelData demoModelFields rfl rfl "x"⟩

theorem tryMatch_some (cs : List Char) (run : List Char) (len : Nat)
    (h : tryMatch cs = some (run, len)) :
    ∃ suf, cs = '\x7b' :: '\x7b' :: (run ++ '\x7d' :: '\x7d' :: suf) ∧
      run ≠ [] ∧ '\x7d' ∉ run := by
  unfold tryMatch at h
  split at h
  next rest =>
    split at h
    next suf2 heq =>
      dsimp only at h
      split at h
      next hemp => simp at h
      next hemp =>
        simp only [Option.some.injEq, Prod.mk.injEq] at h
        obtain ⟨hrun, hlen⟩ := h
        subst hrun
        refine ⟨suf2, ?_, ?_, ?_⟩
        · have hsplit := List.takeWhile_append_dropWhile
            (p := fun c => decide (c ≠ '\x7d')) (l := rest)
          rw [heq] at hsplit
          conv_lhs => rw [← hsplit]
        · simpa [List.isEmpty_iff] using hemp
        · intro hmem
          have := List.mem_takeWhile_imp hmem
          simp at this
    next => simp at h
  next => simp at h

theorem scanAux_eq_nil (f : Nat) : ∀ cs pos,
    (∀ i, tryMatch (List.drop i cs) = none) → scanAux f cs pos = [] := by
  induction f with
  | zero => intro cs pos _; rfl
  | succ f ih =>
    intro cs pos h
    have h0 := h 0
    simp only [List.drop_zero] at h0
    simp only [scanAux, h0]
    cases cs with
    | nil => rfl
    | cons c rest =>
      exact ih rest (pos + 1) (fun i => by
        have hi := h (i + 1)
        rwa [List.drop_succ_cons] at hi)

theorem findPlaceholders_eq_nil (s : String) (h : ¬ hasPlaceholder s) :
    findPlaceholders s = [] := by
  unfold findPlaceholders
  apply scanAux_eq_nil
  intro i
  cases htm : tryMatch (List.drop i s.data) with
  | none => rfl
  | some p =>
    exfalso
    obtain ⟨run, len⟩ := p
    obtain ⟨suf, heq, hne, hnm⟩ := tryMatch_some _ _ _ htm
    exact h ⟨List.take i s.data, run, suf, by
      conv_lhs => rw [← List.take_append_drop i s.data]
      rw [heq], hne, hnm⟩

/-- C7: on a document text containing no substring matching the
placeholder grammar, the validator short-circuits after the scan and
returns, for every data value, the report with no issues, exactly the one
no-placeholders warning, and placeholder count 0. -/
theorem validateTemplate_no_placeholder_shortCircuit (s : String) (data : JSValue)
    (h : ¬ hasPlaceholder s) :
    validateTemplate s data =
      .ok { issues := [], warnings := [msgNoPlaceholders], placeholderCount := 0 } := by
  have hnil : findPlaceholders s = [] := findPlaceholders_eq_nil s h
  simp [validateTemplate, hnil]

/-- Witness for C7 at a brace-free text and null data: the short-circuit
report is produced (even for data on which any lookup would throw). -/
theorem validateTemplate_no_placeholder_shortCircuit_witness :
    validateTemplate "plain text" JSValue.null =
      .ok { issues := [], warnings := [msgNoPlaceholders], placeholderCount := 0 } :=
  validateTemplate_no_placeholder_shortCircuit "plain text" JSValue.null (by
    rintro ⟨pre, run, suf, heq, hne, hnm⟩
    have hmem : '\x7b' ∈ "plain text".data := by
      rw [heq]
      simp
    exact absurd hmem (by decide))

theorem step_occSlashB (data : JSValue) (st : VState) (restL : List String)
    (hls : st.loopStack = "a" :: restL) :
    step data st occSlashB =
      .ok { st with warnings := st.warnings ++ [msgMismatch "/b" "a"] } := by
  simp only [step, show occSlashB.field.data = ['/', 'b'] from rfl,
    show String.mk ['b'] = "b" from rfl, show occSlashB.field = "/b" from rfl, hls]
  simp

theorem getNestedValue_on_a (data : JSValue) (hnn : isNullish data = false) :
    getNestedValue data "a" =
      .ok (descend (if truthy (jsGet data "model") && typeofIsObject (jsGet data "model")
        then jsGet data "model" else data) ["a"]) := by
  unfold getNestedValue jsAccess
  rw [hnn]
  rfl

/-- C6: on the text consisting of the open marker for `a` followed by the
close marker for `b`, with any object or array data, the close step only
records the mismatched-close warning and pops neither stack, and since the
loop-name stack still holds `a` after the scan, the final report also
carries the started-but-never-closed warning for `a`. -/
theorem validateTemplate_mismatched_close (data : JSValue)
    (h : (∃ fs, data = JSValue.obj fs) ∨ (∃ xs, data = JSValue.arr xs)) :
    findPlaceholders "\x7b\x7b#a\x7d\x7d\x7b\x7b/b\x7d\x7d" = [occHashA, occSlashB] ∧
    ∃ st1 : VState,
      step data (initState data) occHashA = .ok st1 ∧
      st1.loopStack = ["a"] ∧
      st1.contextStack.length = 2 ∧
      step data st1 occSlashB =
        .ok { st1 with warnings := st1.warnings ++ [msgMismatch "/b" "a"] } ∧
      ∃ r, validateTemplate "\x7b\x7b#a\x7d\x7d\x7b\x7b/b\x7d\x7d" data = .ok r ∧
        msgMismatch "/b" "a" ∈ r.warnings ∧ msgNeverClosed "a" ∈ r.warnings := by
  have hfp : findPlaceholders "\x7b\x7b#a\x7d\x7d\x7b\x7b/b\x7d\x7d" = [occHashA, occSlashB] := rfl
  refine ⟨hfp, ?_⟩
  have hnn : isNullish data = false := by
    rcases h with ⟨fs, rfl⟩ | ⟨xs, rfl⟩ <;> rfl
  obtain ⟨v, hg⟩ : ∃ v, getNestedValue data "a" = .ok v :=
    ⟨_, getNestedValue_on_a data hnn⟩
  have hstep1 : ∃ st1 : VState,
      step data (initState data) occHashA = .ok st1 ∧
      st1.loopStack = ["a"] ∧ st1.contextStack.length = 2 := by
    cases v with
    | undefined =>
      refine ⟨⟨[msgMissingLoopData "#a" "a"], [], [JSValue.undefined, data], ["a"]⟩, ?_, rfl, rfl⟩
      simp only [step, show occHashA.field.data = ['#', 'a'] from rfl,
        show String.mk ['a'] = "a" from rfl, show occHashA.field = "#a" from rfl,
        initState, List.headD_cons, hg]
      simp
    | arr xs =>
      cases xs with
      | nil =>
        refine ⟨⟨[], [], [JSValue.obj .nil, data], ["a"]⟩, ?_, rfl, rfl⟩
        simp only [step, show occHashA.field.data = ['#', 'a'] from rfl,
          show String.mk ['a'] = "a" from rfl, show occHashA.field = "#a" from rfl,
          initState, List.headD_cons, hg]
      | cons x tail =>
        refine ⟨⟨[], [], [x, data], ["a"]⟩, ?_, rfl, rfl⟩
        simp only [step, show occHashA.field.data = ['#', 'a'] from rfl,
          show String.mk ['a'] = "a" from rfl, show occHashA.field = "#a" from rfl,
          initState, List.headD_cons, hg]
    | obj ofields =>
      refine ⟨⟨[], [], [JSValue.obj ofields, data], ["a"]⟩, ?_, rfl, rfl⟩
      simp only [step, show occHashA.field.data = ['#', 'a'] from rfl,
        show String.mk ['a'] = "a" from rfl, show occHashA.field = "#a" from rfl,
        initState, List.headD_cons, hg]
    | null =>
      refine ⟨⟨[], [msgNotArray "#a" "a" "object"], [JSValue.null, data], ["a"]⟩, ?_, rfl, rfl⟩
      simp only [step, show occHashA.field.data = ['#', 'a'] from rfl,
        show String.mk ['a'] = "a" from rfl, show occHashA.field = "#a" from rfl,
        initState, List.headD_cons, hg]
      simp [jsTypeof]
    | bool b =>
      refine ⟨⟨[], [msgNotArray "#a" "a" "boolean"], [JSValue.bool b, data], ["a"]⟩, ?_, rfl, rfl⟩
      simp only [step, show occHashA.field.data = ['#', 'a'] from rfl,
        show String.mk ['a'] = "a" from rfl, show occHashA.field = "#a" from rfl,
        initState, List.headD_cons, hg]
      simp [jsTypeof]
    | num m =>
      refine ⟨⟨[], [msgNotArray "#a" "a" "number"], [JSValue.num m, data], ["a"]⟩, ?_, rfl, rfl⟩
      simp only [step, show occHashA.field.data = ['#', 'a'] from rfl,
        show String.mk ['a'] = "a" from rfl, show occHashA.field = "#a" from rfl,
        initState, List.headD_cons, hg]
      simp [jsTypeof]
    | str s =>
      refine ⟨⟨[], [msgNotArray "#a" "a" "string"], [JSValue.str s, data], ["a"]⟩, ?_, rfl, rfl⟩
      simp only [step, show occHashA.field.data = ['#', 'a'] from rfl,
        show String.mk ['a'] = "a" from rfl, show occHashA.field = "#a" from rfl,
        initState, List.headD_cons, hg]
      simp [jsTypeof]
  obtain ⟨st1, h1, hls, hlen⟩ := hstep1
  have h2 : step data st1 occSlashB =
      .ok { st1 with warnings := st1.warnings ++ [msgMismatch "/b" "a"] } :=
    step_occSlashB data st1 [] hls
  refine ⟨st1, h1, hls, hlen, h2, ?_⟩
  refine ⟨⟨st1.issues, (st1.warnings ++ [msgMismatch "/b" "a"]) ++ [msgNeverClosed "a"], 2⟩,
    ?_, by simp, by simp⟩
  simp only [validateTemplate, hfp, List.foldlM_cons, List.foldlM_nil, h1]
  rw [show ((Except.ok st1 : Except Unit VState) >>= fun s =>
    step data s occSlashB >>= fun s2 => pure s2) =
    (step data st1 occSlashB >>= fun s2 => pure s2) from rfl]
  rw [h2]
  simp [hls]

/-- Witness for C6 at the empty-object data: the hypothesis holds and the
mismatched-close and never-closed warnings are both produced. -/
theorem validateTemplate_mismatched_close_witness :
    ((∃ fs, JSValue.obj .nil = JSValue.obj fs) ∨ (∃ xs, JSValue.obj .nil = JSValue.arr xs)) ∧
    (findPlaceholders "\x7b\x7b#a\x7d\x7d\x7b\x7b/b\x7d\x7d" = [occHashA, occSlashB] ∧
    ∃ st1 : VState,
      step (JSValue.obj .nil) (initState (JSValue.obj .nil)) occHashA = .ok st1 ∧
      st1.loopStack = ["a"] ∧
      st1.contextStack.length = 2 ∧
      step (JSValue.obj .nil) st1 occSlashB =
        .ok { st1 with warnings := st1.warnings ++ [msgMismatch "/b" "a"] } ∧
      ∃ r, validateTemplate "\x7b\x7b#a\x7d\x7d\x7b\x7b/b\x7d\x7d" (JSValue.obj .nil) = .ok r ∧
        msgMismatch "/b" "a" ∈ r.warnings ∧ msgNeverClosed "a" ∈ r.warnings) :=
  ⟨Or.inl ⟨.nil, rfl⟩,
    validateTemplate_mismatched_close (JSValue.obj .nil) (Or.inl ⟨.nil, rfl⟩)⟩
